import Mathlib

/-!
Shallow embedding of `renutil.py` (koroshiya/renutil), the Ren'Py SDK version
manager: the instance registry, the install/uninstall lifecycle, the cache
directory guard, the resumable download routine and the archive member
prefix-stripping generator, together with theorems checking the
natural-language specification against this embedding.

Conventions used throughout:
* Machine state touched by the program (cache directory, registry file,
  instance folders, downloaded archive files) is an explicit `FSState` record;
  every operation maps a state to `Except (Err × FSState) _`, where an `Err`
  models a non-zero process exit (`sys.exit(1)`) or an uncaught Python
  exception, paired with the filesystem state left behind at that point.
* Python strings handled character by character are modelled as `List Char`
  (`String.data`), so that every definition is executable and kernel-reducible.
* `semantic_version.Version` values: the regex in the source is anchored strict
  semver, and per the spec equality is by normalized version string, so a
  version is represented by its (normalized) string; equality of versions is
  string equality.
-/

deriving instance DecidableEq for Except

/-! ## Character-level string helpers (Python `str.split(sep)` / `sep.join`) -/

/-- Python `s.split(sep)` for a one-character separator, on the character list
of the string: splits at every occurrence of `sep`, keeping empty pieces; the
result is always non-empty (`"".split(sep) == ['']`). -/
def splitCh (sep : Char) : List Char → List (List Char)
  | [] => [[]]
  | c :: cs =>
    match splitCh sep cs with
    | [] => [[]]
    | p :: ps => if c = sep then [] :: p :: ps else (c :: p) :: ps

/-- Python `sep.join(pieces)` for a one-character separator. -/
def joinCh (sep : Char) : List (List Char) → List Char
  | [] => []
  | [p] => p
  | p :: q :: ps => p ++ sep :: joinCh sep (q :: ps)

/-! ## The anchored semver regex (source line 18)

`^((0|[1-9]\d*)\.(0|[1-9]\d*)\.(0|[1-9]\d*)(-(0|[1-9]\d*|\d*[a-zA-Z-][0-9a-zA-Z-]*)
(\.(0|[1-9]\d*|\d*[a-zA-Z-][0-9a-zA-Z-]*))*)?(\+[0-9a-zA-Z-]+(\.[0-9a-zA-Z-]+)*)?)/?$`

decomposed into an executable grammar check over the character list. Group 1
of a match is the whole string minus the optional trailing slash. -/

/-- `0|[1-9]\d*`: a decimal numeral without leading zeros. -/
def numNoLeadZero (l : List Char) : Bool :=
  match l with
  | [] => false
  | [c] => c.isDigit
  | c :: rest => c.isDigit && !(c == '0') && rest.all Char.isDigit

/-- `[0-9a-zA-Z-]`: the character class of pre-release/build identifiers. -/
def identChar (c : Char) : Bool := c.isAlphanum || c == '-'

/-- `0|[1-9]\d*|\d*[a-zA-Z-][0-9a-zA-Z-]*`: one pre-release identifier —
either a no-leading-zero numeral, or a non-empty identifier containing at
least one non-digit. -/
def preIdOk (l : List Char) : Bool :=
  numNoLeadZero l || (!l.isEmpty && l.all identChar && !(l.all Char.isDigit))

/-- `[0-9a-zA-Z-]+`: one build identifier. -/
def buildIdOk (l : List Char) : Bool := !l.isEmpty && l.all identChar

/-- `MAJOR.MINOR.PATCH`: exactly three dot-separated no-leading-zero numerals. -/
def tripleOk (l : List Char) : Bool :=
  match splitCh '.' l with
  | [a, b, c] => numNoLeadZero a && numNoLeadZero b && numNoLeadZero c
  | _ => false

/-- Dot-separated non-empty list of pre-release identifiers. -/
def preOk (l : List Char) : Bool := (splitCh '.' l).all preIdOk

/-- Dot-separated non-empty list of build identifiers. -/
def buildOk (l : List Char) : Bool := (splitCh '.' l).all buildIdOk

/-- `MAJOR.MINOR.PATCH` optionally followed by `-PRERELEASE`. The version core
contains no `-`, so the first `-` starts the pre-release part (which may itself
contain `-`, hence the re-join of the remaining pieces). -/
def vpOk (l : List Char) : Bool :=
  match splitCh '-' l with
  | [] => false
  | [v] => tripleOk v
  | v :: rest => tripleOk v && preOk (joinCh '-' rest)

/-- The full version grammar: version-and-prerelease optionally followed by
`+BUILD`; neither part may contain a further `+`. -/
def semverCoreOk (l : List Char) : Bool :=
  match splitCh '+' l with
  | [vp] => vpOk vp
  | [vp, b] => vpOk vp && buildOk b
  | _ => false

/-- Python `name.endswith('/')` (also the `/?$` tail of the regex). -/
def strEndsSlash (f : String) : Bool := f.data.getLast? == some '/'

/-- `semver.match(folder)` returning group 1 on success: the whole string minus
at most one trailing slash, provided it satisfies the semver grammar. -/
def semverGroup1 (folder : String) : Option String :=
  let chars := folder.data
  let core := if strEndsSlash folder then chars.dropLast else chars
  if semverCoreOk core then some (String.mk core) else none

/-! ## Data model -/

/-- A `semantic_version.Version`, represented by its normalized version string
(the spec: equality is by normalized version string; the source only ever
builds versions from strings matched by the anchored semver regex, whose
group 1 is already normalized). -/
abbrev Version := String

/-- `RenpyInstance` (source lines 55-63): a locally installed SDK. The
constructor derives `launcher_path` from `path`. -/
structure RenpyInstance where
  version : Version
  path : String
  launcher_path : String
  deriving Repr, DecidableEq

/-- `RenpyInstance.__init__`: `launcher_path = join(path, "launcher")`. -/
def mkInstance (version : Version) (path : String) : RenpyInstance :=
  { version := version, path := path, launcher_path := path ++ "/launcher" }

/-- Contents of the registry file `index.json`: either a jsonpickle-decodable
list of instances, or malformed content on which `jsonpickle.decode` raises
`JSONDecodeError`. -/
inductive RegContent where
  | valid (instances : List RenpyInstance)
  | corrupt
  deriving Repr, DecidableEq

/-- The filesystem state the program touches under the cache root `~/.renutil`.
`cacheDirExists` and `cachePerm` model `isdir(CACHE)` and the permission bits;
`os.access(CACHE, R_OK | W_OK)` is their conjunction, since `os.access` on a
nonexistent path returns `False`. `registryFile` is the registry file
(`none` = absent), `folders` the immediate subfolder names of the cache root
(as `os.listdir` yields them: no slashes, no duplicates — stated as hypotheses
where needed), `archiveFiles` the downloaded `.zip` files in the cache root. -/
structure FSState where
  cacheDirExists : Bool
  cachePerm : Bool
  registryFile : Option RegContent
  folders : List String
  archiveFiles : List String
  deriving Repr, DecidableEq

/-- A non-zero process exit (`exit(1)`) or an uncaught Python exception
(`crash`), as the reason an operation terminated early. -/
inductive Err where
  | notWritable
  | alreadyInstalled
  | notInstalled
  | crash
  deriving Repr, DecidableEq

/-- Result of an operation: the final state, or the error together with the
state left behind when the process died. -/
abbrev Res (α : Type) := Except (Err × FSState) α

/-! ## Cache directory guard and registry store -/

/-- `scan_instances(path)` (source lines 81-88): keep the folder names matched
by the semver regex; each match yields `RenpyInstance(Version(m.group(1)), folder)`. -/
def scan_instances (folders : List String) : List RenpyInstance :=
  folders.filterMap (fun folder =>
    match semverGroup1 folder with
    | some v => some (mkInstance v folder)
    | none => none)

/-- `assure_state` (source lines 91-109), the cache directory guard run before
every operation: exit if `os.access(CACHE, R_OK | W_OK)` fails; `mkdir` the
cache root if it is not a directory (note the order: the access check comes
first); create the registry file from `scan_instances` if it is absent. -/
def assure_state (s : FSState) : Res FSState :=
  if !(s.cacheDirExists && s.cachePerm) then
    .error (.notWritable, s)
  else
    let s1 := if !s.cacheDirExists then { s with cacheDirExists := true } else s
    match s1.registryFile with
    | none => .ok { s1 with registryFile := some (.valid (scan_instances s1.folders)) }
    | some _ => .ok s1

/-- The state after the corrupt-registry self-heal: registry file deleted and
recreated from `scan_instances` by `call_assure_state`. -/
def healState (s : FSState) : FSState :=
  { s with registryFile := some (.valid (scan_instances s.folders)) }

/-- `get_registry` (source lines 117-126), `@assure_state`-decorated: open the
registry file (raises if absent — unreachable after the guard), decode it; on
`JSONDecodeError` delete the file, re-run the guard, and return `None`. -/
def get_registry (s : FSState) : Res (FSState × Option (List RenpyInstance)) :=
  match assure_state s with
  | .error e => .error e
  | .ok s1 =>
    match s1.registryFile with
    | some (.valid reg) => .ok (s1, some reg)
    | some .corrupt =>
      match assure_state { s1 with registryFile := none } with
      | .error e => .error e
      | .ok s2 => .ok (s2, none)
    | none => .error (.crash, s1)

/-- Python's `for i, inst in enumerate(registry): if inst.version == instance.version:
del registry[i]` (source lines 131-133). Deleting index `i` while the list
iterator is live makes the loop skip the element that slides into position `i`;
this structural recursion is exactly that semantics. -/
def del_matching (v : Version) : List RenpyInstance → List RenpyInstance
  | [] => []
  | a :: rest =>
    if a.version = v then
      match rest with
      | [] => []
      | b :: rest2 => b :: del_matching v rest2
    else a :: del_matching v rest

/-- `remove_from_registry(instance)` (source lines 129-135): load via
`get_registry` (iterating `None` raises `TypeError`), run the deleting loop,
rewrite the file wholesale. -/
def remove_from_registry (s : FSState) (inst : RenpyInstance) : Res FSState :=
  match get_registry s with
  | .error e => .error e
  | .ok (s1, none) => .error (.crash, s1)
  | .ok (s1, some reg) =>
    .ok { s1 with registryFile := some (.valid (del_matching inst.version reg)) }

/-- `add_to_registry(instance)` (source lines 138-142): load via `get_registry`
(`None.append` raises `AttributeError`), append, rewrite the file wholesale. -/
def add_to_registry (s : FSState) (inst : RenpyInstance) : Res FSState :=
  match get_registry s with
  | .error e => .error e
  | .ok (s1, none) => .error (.crash, s1)
  | .ok (s1, some reg) =>
    .ok { s1 with registryFile := some (.valid (reg ++ [inst])) }

/-- `get_instance(version)` (source lines 145-152): first instance whose
version equals the argument, else `None`; iterating a `None` registry raises. -/
def get_instance (s : FSState) (v : Version) : Res (FSState × Option RenpyInstance) :=
  match get_registry s with
  | .error e => .error e
  | .ok (s1, none) => .error (.crash, s1)
  | .ok (s1, some reg) => .ok (s1, reg.find? (fun i => i.version == v))

/-- `installed(version)` (source lines 195-201): membership test against the
registry by version equality; iterating a `None` registry raises `TypeError`. -/
def installed (s : FSState) (v : Version) : Res (FSState × Bool) :=
  match get_registry s with
  | .error e => .error e
  | .ok (s1, none) => .error (.crash, s1)
  | .ok (s1, some reg) => .ok (s1, reg.any (fun i => i.version == v))

/-! ## Instance lifecycle -/

/-- Writing a file (a download result, an extraction target) into a directory
listing: a name already present stays a single entry. -/
def addFile (files : List String) (f : String) : List String :=
  if f ∈ files then files else files ++ [f]

/-- `os.remove(path)`: deletes the file, raising `FileNotFoundError` when it is
absent. -/
def removeFile (s : FSState) (f : String) : Res FSState :=
  if f ∈ s.archiveFiles then .ok { s with archiveFiles := s.archiveFiles.erase f }
  else .error (.crash, s)

/-- `"renpy-{0}-sdk.zip".format(version)`. -/
def sdkFilename (v : Version) : String := "renpy-" ++ v ++ "-sdk.zip"

/-- `"renpy-{0}-rapt.zip".format(version)`. -/
def raptFilename (v : Version) : String := "renpy-" ++ v ++ "-rapt.zip"

/-- `install` (source lines 239-270), `@assure_state`-decorated. Network and
archive contents are external collaborators: a completed download is modelled
as the archive file becoming present in the cache root, and extraction as the
folder named by the version becoming present. Lines 264-265 re-open and decode
the registry file directly (raising on absent or malformed content); the
decoded value is unused. Cleanup deletes both archive files. -/
def install (s0 : FSState) (v : Version) : Res FSState :=
  match assure_state s0 with
  | .error e => .error e
  | .ok s =>
    match installed s v with
    | .error e => .error e
    | .ok (s, true) => .error (.alreadyInstalled, s)
    | .ok (s, false) =>
      let s := { s with
        archiveFiles := addFile (addFile s.archiveFiles (sdkFilename v)) (raptFilename v) }
      let s := { s with folders := addFile s.folders v }
      match s.registryFile with
      | none => .error (.crash, s)
      | some .corrupt => .error (.crash, s)
      | some (.valid _) =>
        match add_to_registry s (mkInstance v v) with
        | .error e => .error e
        | .ok s =>
          match removeFile s (sdkFilename v) with
          | .error e => .error e
          | .ok s => removeFile s (raptFilename v)

/-- `uninstall` (source lines 273-280), `@assure_state`-decorated: exit if not
installed; look the instance up; remove it from the registry (registry rewrite
happens first), then `rmtree` its folder (raising when the folder is absent). -/
def uninstall (s0 : FSState) (v : Version) : Res FSState :=
  match assure_state s0 with
  | .error e => .error e
  | .ok s =>
    match installed s v with
    | .error e => .error e
    | .ok (s, false) => .error (.notInstalled, s)
    | .ok (s, true) =>
      match get_instance s v with
      | .error e => .error e
      | .ok (s, none) => .error (.crash, s)
      | .ok (s, some inst) =>
        match remove_from_registry s inst with
        | .error e => .error e
        | .ok s =>
          if inst.path ∈ s.folders then .ok { s with folders := s.folders.erase inst.path }
          else .error (.crash, s)

/-! ## Listing installed versions -/

/-- What the `list --installed` path prints. -/
inductive ListOutput where
  | noInstances
  | versions (vs : List Version)
  deriving Repr, DecidableEq

/-- Python `l[:n]` for an `int` `n` (negative `n` counts from the end). -/
def pySlice {α : Type} (n : Int) (l : List α) : List α :=
  l.take (if n < 0 then ((l.length : Int) + n).toNat else n.toNat)

/-- The `args.installed` branch of `list_versions` (source lines 176-184),
`@assure_state`-decorated: load the registry, print "No instances are currently
installed." when it is falsy (`None` or empty), else print the versions of the
first `args.n` registry entries in registry order. -/
def list_installed (s : FSState) (n : Int) : Res (FSState × ListOutput) :=
  match assure_state s with
  | .error e => .error e
  | .ok s1 =>
    match get_registry s1 with
    | .error e => .error e
    | .ok (s2, none) => .ok (s2, .noInstances)
    | .ok (s2, some reg) =>
      if reg.isEmpty then .ok (s2, .noInstances)
      else .ok (s2, .versions ((pySlice n reg).map (fun i => i.version)))

/-! ## Resumable download (source lines 204-220)

The remote object is a byte list; `hasLen` says whether the HTTP response
carries a `Content-Length` header (`headers.get("Content-Length", -1)`).
The destination file is `none` when absent. The returned pair is the new
destination file content and the byte-range request issued
(`none` = no request made). -/

/-- The body a compliant HTTP server streams for `Range: bytes=first-last`:
bytes `first` through `last` inclusive, with a last-byte-pos at or past the end
of the resource clamped to the final byte (modelled from HTTP range semantics;
the network is an external collaborator). -/
def serverRange (remote : List Nat) (first : Nat) (last : Int) : List Nat :=
  (remote.take (last.toNat + 1)).drop first

/-- `download(url, dest)`: `file_size` from the `Content-Length` header or
`-1`; `first_byte` the size of the existing partial file or `0`; skip when
`first_byte >= file_size`; else request `Range: bytes=first_byte-file_size`
and append the streamed body to the file opened in mode `"ab"`. -/
def download (remote : List Nat) (hasLen : Bool) (dest : Option (List Nat)) :
    Option (List Nat) × Option (Int × Int) :=
  let file_size : Int := if hasLen then (remote.length : Int) else -1
  let first_byte : Nat :=
    match dest with
    | some content => content.length
    | none => 0
  if (first_byte : Int) ≥ file_size then (dest, none)
  else (some (dest.getD [] ++ serverRange remote first_byte file_size),
        some ((first_byte : Int), file_size))

/-! ## Archive member prefix stripping (`get_members`, source lines 223-236) -/

/-- Longest common prefix of two lists (what `os.path.commonprefix` computes
element-wise on a pair). -/
def lcp2 {α : Type} [DecidableEq α] : List α → List α → List α
  | a :: as, b :: bs => if a = b then a :: lcp2 as bs else []
  | _, _ => []

/-- `os.path.commonprefix(m)` applied to a list of sequences: the longest
sequence that is an initial segment of every element of `m` (`[]` when `m` is
empty). -/
def commonPre {α : Type} [DecidableEq α] : List (List α) → List α
  | [] => []
  | x :: xs => xs.foldl lcp2 x

/-- The `parts` list of `get_members` (source lines 224-227): for every entry
whose name does not end in `/`, its name split on `/` minus the final
component. -/
def memberParts (names : List (List Char)) : List (List (List Char)) :=
  (names.filter (fun n => !(n.getLast? == some '/'))).map
    (fun n => (splitCh '/' n).dropLast)

/-- The `prefix` value of `get_members` after lines 228-230: the common
component prefix joined with `/` and terminated by `/` when non-empty; the
empty prefix is left as-is (`len` of the empty list and of the empty string
are both `0`). -/
def memberOffsetStr (names : List (List Char)) : List Char :=
  if commonPre (memberParts names) = [] then []
  else joinCh '/' (commonPre (memberParts names)) ++ ['/']

/-- `get_members(zip)` (source lines 223-236): yield every entry whose name is
longer than the offset, with the first `offset` characters removed. Entry
names are the archive's `namelist` (same names as `infolist`). -/
def get_members (names : List (List Char)) : List (List Char) :=
  names.filterMap (fun n =>
    if (memberOffsetStr names).length < n.length
    then some (n.drop (memberOffsetStr names).length) else none)

/-! ## Spec-side definitions -/

/-- Modelled from the spec: the numeric comparison of the `MAJOR.MINOR.PATCH`
core of the VersionID total order, which in the source lives in the external
`semantic_version` library (`ComparableVersion.__lt__` delegates to it). Only
core-only versions are compared here, where semver precedence is exactly the
numeric field-wise comparison; pre-release and build rules are not needed. -/
def numsLt : List Nat → List Nat → Bool
  | [], [] => false
  | [], _ :: _ => true
  | _ :: _, [] => false
  | a :: as, b :: bs => if a < b then true else if b < a then false else numsLt as bs

/-- Modelled from the spec: `VersionID(a) < VersionID(b)` for build-free,
pre-release-free semver strings. -/
def versionLt (a b : Version) : Bool :=
  numsLt (((splitCh '.' a.data).map (fun p => p.foldl (fun n c => n * 10 + c.toNat - 48) 0)))
    (((splitCh '.' b.data).map (fun p => p.foldl (fun n c => n * 10 + c.toNat - 48) 0)))

/-! ## Invariants and example states -/

/-- The uniqueness invariant (spec §3): a readable registry never holds two
instances with equal VersionID. -/
def UniqueReg (s : FSState) : Prop :=
  match s.registryFile with
  | some (.valid reg) => (reg.map (fun i => i.version)).Nodup
  | _ => True

/-- What `os.listdir` guarantees about the cache root's folder list: entry
names are pairwise distinct and contain no path separator (in particular they
do not end in `/`). -/
def GoodFolders (s : FSState) : Prop :=
  s.folders.Nodup ∧ ∀ f ∈ s.folders, strEndsSlash f = false

/-- The state an operation leaves behind, whether it returned or exited. -/
def outState (r : Res FSState) : FSState :=
  match r with
  | .ok s => s
  | .error (_, s) => s

/-- A concrete healthy state: one installed instance `7.4.0`. -/
def exState : FSState :=
  { cacheDirExists := true
    cachePerm := true
    registryFile := some (.valid [mkInstance "7.4.0" "7.4.0"])
    folders := ["7.4.0"]
    archiveFiles := [] }

/-- A concrete state whose registry file holds malformed content. -/
def exCorrupt : FSState :=
  { cacheDirExists := true
    cachePerm := true
    registryFile := some .corrupt
    folders := ["7.4.0", "lib"]
    archiveFiles := [] }

/-- A concrete state with two installed instances, lowest version first. -/
def exTwo : FSState :=
  { cacheDirExists := true
    cachePerm := true
    registryFile := some (.valid [mkInstance "1.0.0" "1.0.0", mkInstance "2.0.0" "2.0.0"])
    folders := ["1.0.0", "2.0.0"]
    archiveFiles := [] }

/-! ## Basic lemmas about the guard and the registry store -/

theorem assure_state_of_file (s : FSState) (c : RegContent)
    (ha : s.cacheDirExists = true) (hp : s.cachePerm = true)
    (hr : s.registryFile = some c) :
    assure_state s = .ok s := by
  simp [assure_state, ha, hp, hr]

theorem assure_state_of_no_file (s : FSState)
    (ha : s.cacheDirExists = true) (hp : s.cachePerm = true)
    (hr : s.registryFile = none) :
    assure_state s = .ok (healState s) := by
  simp [assure_state, healState, ha, hp, hr]

theorem assure_state_cases (s : FSState) :
    assure_state s = .error (.notWritable, s) ∨
    (s.cacheDirExists = true ∧ s.cachePerm = true ∧
      ((∃ c, s.registryFile = some c ∧ assure_state s = .ok s) ∨
       (s.registryFile = none ∧ assure_state s = .ok (healState s)))) := by
  by_cases ha : s.cacheDirExists = true
  · by_cases hp : s.cachePerm = true
    · cases hr : s.registryFile with
      | none => exact Or.inr ⟨ha, hp, Or.inr ⟨rfl, assure_state_of_no_file s ha hp hr⟩⟩
      | some c => exact Or.inr ⟨ha, hp, Or.inl ⟨c, rfl, assure_state_of_file s c ha hp hr⟩⟩
    · left
      simp [assure_state, Bool.eq_false_iff.mpr hp]
  · left
    simp [assure_state, Bool.eq_false_iff.mpr ha]

theorem get_registry_of_valid (s : FSState) (reg : List RenpyInstance)
    (ha : s.cacheDirExists = true) (hp : s.cachePerm = true)
    (hr : s.registryFile = some (.valid reg)) :
    get_registry s = .ok (s, some reg) := by
  simp [get_registry, assure_state_of_file s _ ha hp hr, hr]

theorem get_registry_of_corrupt (s : FSState)
    (ha : s.cacheDirExists = true) (hp : s.cachePerm = true)
    (hr : s.registryFile = some .corrupt) :
    get_registry s = .ok (healState s, none) := by
  have h2 : assure_state { s with registryFile := none } = .ok (healState s) :=
    assure_state_of_no_file { s with registryFile := none } ha hp rfl
  simp [get_registry, assure_state_of_file s _ ha hp hr, hr, h2]

theorem installed_of_valid (s : FSState) (v : Version) (reg : List RenpyInstance)
    (ha : s.cacheDirExists = true) (hp : s.cachePerm = true)
    (hr : s.registryFile = some (.valid reg)) :
    installed s v = .ok (s, reg.any (fun i => i.version == v)) := by
  simp [installed, get_registry_of_valid s reg ha hp hr]

theorem installed_of_corrupt (s : FSState) (v : Version)
    (ha : s.cacheDirExists = true) (hp : s.cachePerm = true)
    (hr : s.registryFile = some .corrupt) :
    installed s v = .error (.crash, healState s) := by
  simp [installed, get_registry_of_corrupt s ha hp hr]

theorem get_instance_of_valid (s : FSState) (v : Version) (reg : List RenpyInstance)
    (ha : s.cacheDirExists = true) (hp : s.cachePerm = true)
    (hr : s.registryFile = some (.valid reg)) :
    get_instance s v = .ok (s, reg.find? (fun i => i.version == v)) := by
  simp [get_instance, get_registry_of_valid s reg ha hp hr]

theorem add_to_registry_of_valid (s : FSState) (inst : RenpyInstance)
    (reg : List RenpyInstance)
    (ha : s.cacheDirExists = true) (hp : s.cachePerm = true)
    (hr : s.registryFile = some (.valid reg)) :
    add_to_registry s inst = .ok { s with registryFile := some (.valid (reg ++ [inst])) } := by
  simp [add_to_registry, get_registry_of_valid s reg ha hp hr]

theorem remove_from_registry_of_valid (s : FSState) (inst : RenpyInstance)
    (reg : List RenpyInstance)
    (ha : s.cacheDirExists = true) (hp : s.cachePerm = true)
    (hr : s.registryFile = some (.valid reg)) :
    remove_from_registry s inst =
      .ok { s with registryFile := some (.valid (del_matching inst.version reg)) } := by
  simp [remove_from_registry, get_registry_of_valid s reg ha hp hr]

/-! ## Lemmas about the deleting loop, the scan, and file bookkeeping -/

theorem del_matching_sublist (v : Version) :
    ∀ l : List RenpyInstance, List.Sublist (del_matching v l) l
  | [] => by simp [del_matching]
  | a :: rest => by
    unfold del_matching
    by_cases h : a.version = v
    · rw [if_pos h]
      cases rest with
      | nil => exact List.nil_sublist _
      | cons b rest2 =>
        exact ((del_matching_sublist v rest2).cons₂ b).cons a
    · rw [if_neg h]
      exact (del_matching_sublist v rest).cons₂ a

theorem del_matching_removes (v : Version) :
    ∀ l : List RenpyInstance, (l.map (fun i => i.version)).Nodup →
      ∀ i ∈ del_matching v l, i.version ≠ v
  | [], _, i, hi => by simp [del_matching] at hi
  | a :: rest, hnd, i, hi => by
    rw [List.map_cons, List.nodup_cons] at hnd
    unfold del_matching at hi
    by_cases h : a.version = v
    · rw [if_pos h] at hi
      cases rest with
      | nil => simp at hi
      | cons b rest2 =>
        have hmem : i ∈ b :: rest2 := by
          rcases List.mem_cons.mp hi with h1 | h1
          · exact h1 ▸ List.mem_cons_self b rest2
          · exact List.mem_cons_of_mem b ((del_matching_sublist v rest2).mem h1)
        intro hv
        exact hnd.1 (h ▸ hv ▸ List.mem_map_of_mem (fun i => i.version) hmem)
    · rw [if_neg h] at hi
      rcases List.mem_cons.mp hi with h1 | h1
      · exact h1 ▸ h
      · exact del_matching_removes v rest hnd.2 i h1

theorem del_matching_any_false (v : Version) (l : List RenpyInstance)
    (hnd : (l.map (fun i => i.version)).Nodup) :
    (del_matching v l).any (fun i => i.version == v) = false := by
  rw [List.any_eq_false]
  intro i hi
  simpa using del_matching_removes v l hnd i hi

theorem semverGroup1_of_no_slash (f : String) (h : strEndsSlash f = false) :
    semverGroup1 f = if semverCoreOk f.data then some f else none := by
  simp [semverGroup1, h]

theorem scan_versions (folders : List String)
    (h : ∀ f ∈ folders, strEndsSlash f = false) :
    (scan_instances folders).map (fun i => i.version) =
      folders.filter (fun f => semverCoreOk f.data) := by
  induction folders with
  | nil => simp [scan_instances]
  | cons a rest ih =>
    have ha := h a (List.mem_cons_self a rest)
    have ih2 := ih (fun f hf => h f (List.mem_cons_of_mem a hf))
    simp only [scan_instances] at ih2 ⊢
    rw [List.filterMap_cons, List.filter_cons, semverGroup1_of_no_slash a ha]
    by_cases hc : semverCoreOk a.data = true
    · simp only [hc, if_true, List.map_cons]
      refine congrArg₂ _ rfl ?_
      exact ih2
    · simp only [hc, Bool.false_eq_true, if_false]
      exact ih2

theorem uniq_healState (s : FSState) (hG : GoodFolders s) : UniqueReg (healState s) := by
  simp only [UniqueReg, healState]
  rw [scan_versions s.folders hG.2]
  exact hG.1.filter _

theorem mem_addFile_self (l : List String) (f : String) : f ∈ addFile l f := by
  unfold addFile
  split
  · assumption
  · simp

theorem mem_addFile_of_mem (l : List String) (f g : String) (h : f ∈ l) : f ∈ addFile l g := by
  unfold addFile
  split
  · exact h
  · exact List.mem_append_left _ h

theorem sdk_ne_rapt (v : Version) : sdkFilename v ≠ raptFilename v := by
  intro h
  have h2 := congrArg String.length h
  have e1 : ("renpy-" : String).length = 6 := rfl
  have e2 : ("-sdk.zip" : String).length = 8 := rfl
  have e3 : ("-rapt.zip" : String).length = 9 := rfl
  simp only [sdkFilename, raptFilename, String.length_append, e1, e2, e3] at h2
  omega

/-! ## Characterizations of the lifecycle operations on healthy states -/

theorem install_success (s : FSState) (v : Version) (reg : List RenpyInstance)
    (ha : s.cacheDirExists = true) (hp : s.cachePerm = true)
    (hr : s.registryFile = some (.valid reg))
    (hnot : reg.any (fun i => i.version == v) = false) :
    install s v = .ok
      { cacheDirExists := s.cacheDirExists
        cachePerm := s.cachePerm
        registryFile := some (.valid (reg ++ [mkInstance v v]))
        folders := addFile s.folders v
        archiveFiles := ((addFile (addFile s.archiveFiles (sdkFilename v))
          (raptFilename v)).erase (sdkFilename v)).erase (raptFilename v) } := by
  have hmsdk : sdkFilename v ∈ addFile (addFile s.archiveFiles (sdkFilename v)) (raptFilename v) :=
    mem_addFile_of_mem _ _ _ (mem_addFile_self _ _)
  have hmrapt : raptFilename v ∈
      (addFile (addFile s.archiveFiles (sdkFilename v)) (raptFilename v)).erase (sdkFilename v) :=
    (List.mem_erase_of_ne (Ne.symm (sdk_ne_rapt v))).mpr (mem_addFile_self _ _)
  have hadd := add_to_registry_of_valid
    { s with registryFile := some (.valid reg),
             folders := addFile s.folders v,
             archiveFiles := addFile (addFile s.archiveFiles (sdkFilename v)) (raptFilename v) }
    (mkInstance v v) reg ha hp rfl
  simp only [install, assure_state_of_file s _ ha hp hr, installed_of_valid s v reg ha hp hr,
    hnot, hr, hadd, removeFile, hmsdk, hmrapt, if_true]
  try rfl

theorem install_already (s : FSState) (v : Version) (reg : List RenpyInstance)
    (ha : s.cacheDirExists = true) (hp : s.cachePerm = true)
    (hr : s.registryFile = some (.valid reg))
    (hany : reg.any (fun i => i.version == v) = true) :
    install s v = .error (.alreadyInstalled, s) := by
  simp only [install, assure_state_of_file s _ ha hp hr, installed_of_valid s v reg ha hp hr,
    hany]

theorem uninstall_found (s : FSState) (v : Version) (reg : List RenpyInstance)
    (inst : RenpyInstance)
    (ha : s.cacheDirExists = true) (hp : s.cachePerm = true)
    (hr : s.registryFile = some (.valid reg))
    (hany : reg.any (fun i => i.version == v) = true)
    (hfind : reg.find? (fun i => i.version == v) = some inst) :
    uninstall s v =
      if inst.path ∈ s.folders then
        .ok { s with registryFile := some (.valid (del_matching inst.version reg)),
                     folders := s.folders.erase inst.path }
      else .error (.crash, { s with registryFile := some (.valid (del_matching inst.version reg)) }) := by
  simp only [uninstall, assure_state_of_file s _ ha hp hr, installed_of_valid s v reg ha hp hr,
    hany, get_instance_of_valid s v reg ha hp hr, hfind,
    remove_from_registry_of_valid s inst reg ha hp hr]
  try rfl

theorem uninstall_missing (s : FSState) (v : Version) (reg : List RenpyInstance)
    (ha : s.cacheDirExists = true) (hp : s.cachePerm = true)
    (hr : s.registryFile = some (.valid reg))
    (hany : reg.any (fun i => i.version == v) = false) :
    uninstall s v = .error (.notInstalled, s) := by
  simp only [uninstall, assure_state_of_file s _ ha hp hr, installed_of_valid s v reg ha hp hr,
    hany]

/-! ## Claim theorems: error rejection (C1, C3) -/

/-- C1: for every version `v` already present in the registry, `install(v)`
fails with `AlreadyInstalled` (a non-zero process exit) and no mutation
occurs — the entire filesystem state, in particular the registry contents and
the cache folder for `v`, is exactly the state before the call. -/
theorem install_already_installed_rejected (s : FSState) (v : Version)
    (reg : List RenpyInstance)
    (ha : s.cacheDirExists = true) (hp : s.cachePerm = true)
    (hr : s.registryFile = some (.valid reg))
    (hv : ∃ i ∈ reg, i.version = v) :
    install s v = .error (.alreadyInstalled, s) := by
  apply install_already s v reg ha hp hr
  rw [List.any_eq_true]
  rcases hv with ⟨i, hi, hvi⟩
  exact ⟨i, hi, by simp [hvi]⟩

theorem install_already_installed_rejected_witness :
    (∃ i ∈ [mkInstance "7.4.0" "7.4.0"], i.version = "7.4.0") ∧
      install exState "7.4.0" = .error (.alreadyInstalled, exState) :=
  ⟨by decide, install_already_installed_rejected exState "7.4.0" [mkInstance "7.4.0" "7.4.0"]
    rfl rfl rfl (by decide)⟩

/-- C3: for every version `v` not in the registry, `uninstall(v)` fails with
`NotInstalled` (a non-zero process exit) and performs no filesystem mutation:
the state — in particular every folder under the cache root and the registry
file — is exactly the state before the call. -/
theorem uninstall_not_installed_rejected (s : FSState) (v : Version)
    (reg : List RenpyInstance)
    (ha : s.cacheDirExists = true) (hp : s.cachePerm = true)
    (hr : s.registryFile = some (.valid reg))
    (hv : ∀ i ∈ reg, i.version ≠ v) :
    uninstall s v = .error (.notInstalled, s) := by
  apply uninstall_missing s v reg ha hp hr
  rw [List.any_eq_false]
  intro i hi
  simpa using hv i hi

theorem uninstall_not_installed_rejected_witness :
    (∀ i ∈ [mkInstance "7.4.0" "7.4.0"], i.version ≠ "8.0.0") ∧
      uninstall exState "8.0.0" = .error (.notInstalled, exState) :=
  ⟨by decide, uninstall_not_installed_rejected exState "8.0.0" [mkInstance "7.4.0" "7.4.0"]
    rfl rfl rfl (by decide)⟩

/-! ## Claim theorems: the two guard bugs (C5, C6) -/

/-- C5: when the registry file exists but fails to deserialize, `get_registry`
does delete it and re-run the scan-and-create path (first two conjuncts), but
the self-heal is not transparent: `get_registry` returns `None` instead of the
rebuilt registry, so a lifecycle operation such as `installed` crashes with an
uncaught `TypeError` (iterating `None`) instead of proceeding against the
rebuilt registry. This contradicts the claim's "transparent to the caller /
never surfaced" part. -/
theorem corrupt_registry_selfheal_crashes_caller (s : FSState) (v : Version)
    (ha : s.cacheDirExists = true) (hp : s.cachePerm = true)
    (hr : s.registryFile = some .corrupt) :
    get_registry s = .ok (healState s, none) ∧
    (healState s).registryFile = some (.valid (scan_instances s.folders)) ∧
    installed s v = .error (.crash, healState s) :=
  ⟨get_registry_of_corrupt s ha hp hr, rfl, installed_of_corrupt s v ha hp hr⟩

theorem corrupt_registry_selfheal_crashes_caller_witness :
    get_registry exCorrupt = .ok (healState exCorrupt, none) ∧
    (healState exCorrupt).registryFile =
      some (.valid (scan_instances exCorrupt.folders)) ∧
    installed exCorrupt "7.4.0" = .error (.crash, healState exCorrupt) :=
  corrupt_registry_selfheal_crashes_caller exCorrupt "7.4.0" rfl rfl rfl

/-- C6: on every starting state in which the cache root directory does not
exist, the guard exits fatally with the not-writable error and never creates
the cache root: `os.access` on a nonexistent path returns `False`, and the
access check precedes the `mkdir` branch, making the latter unreachable. This
contradicts the claim that the guard creates a missing cache root and fails
with `NotWritable` only on a permission problem. -/
theorem missing_cache_root_never_created (s : FSState)
    (h : s.cacheDirExists = false) :
    assure_state s = .error (.notWritable, s) := by
  simp [assure_state, h]

theorem missing_cache_root_never_created_witness :
    ({ exState with cacheDirExists := false } : FSState).cacheDirExists = false ∧
      assure_state { exState with cacheDirExists := false } =
        .error (.notWritable, { exState with cacheDirExists := false }) :=
  ⟨rfl, missing_cache_root_never_created { exState with cacheDirExists := false } rfl⟩

/-! ## Claim theorem: install/uninstall vs. membership (C2) -/

/-- C2: for every version `v` not in the registry, a successful `install(v)`
followed immediately by `isInstalled(v)` returns true; and for every installed
`v` (with the registry satisfying its uniqueness invariant and the instance
folder present on disk), `uninstall(v)` followed by `isInstalled(v)` returns
false. -/
theorem install_uninstall_membership (s : FSState) (v : Version)
    (reg : List RenpyInstance)
    (ha : s.cacheDirExists = true) (hp : s.cachePerm = true)
    (hr : s.registryFile = some (.valid reg)) :
    ((∀ i ∈ reg, i.version ≠ v) →
      ∃ s1, install s v = .ok s1 ∧ installed s1 v = .ok (s1, true)) ∧
    ((∃ i ∈ reg, i.version = v) → (reg.map (fun i => i.version)).Nodup →
      (∀ i ∈ reg, i.version = v → i.path ∈ s.folders) →
      ∃ s2, uninstall s v = .ok s2 ∧ installed s2 v = .ok (s2, false)) := by
  constructor
  · intro hnot
    have hnot2 : reg.any (fun i => i.version == v) = false := by
      rw [List.any_eq_false]
      intro i hi
      simpa using hnot i hi
    refine ⟨{ cacheDirExists := s.cacheDirExists,
              cachePerm := s.cachePerm,
              registryFile := some (.valid (reg ++ [mkInstance v v])),
              folders := addFile s.folders v,
              archiveFiles := ((addFile (addFile s.archiveFiles (sdkFilename v))
                (raptFilename v)).erase (sdkFilename v)).erase (raptFilename v) },
      install_success s v reg ha hp hr hnot2, ?_⟩
    rw [installed_of_valid { cacheDirExists := s.cacheDirExists,
                             cachePerm := s.cachePerm,
                             registryFile := some (.valid (reg ++ [mkInstance v v])),
                             folders := addFile s.folders v,
                             archiveFiles := ((addFile (addFile s.archiveFiles (sdkFilename v))
                               (raptFilename v)).erase (sdkFilename v)).erase (raptFilename v) }
      v (reg ++ [mkInstance v v]) ha hp rfl]
    simp [mkInstance]
  · intro hin hnd hpaths
    have hany : reg.any (fun i => i.version == v) = true := by
      rw [List.any_eq_true]
      rcases hin with ⟨i, hi, hvi⟩
      exact ⟨i, hi, by simp [hvi]⟩
    obtain ⟨inst, hfind⟩ : ∃ inst, reg.find? (fun i => i.version == v) = some inst := by
      cases hf : reg.find? (fun i => i.version == v) with
      | some i => exact ⟨i, rfl⟩
      | none =>
        rw [List.find?_eq_none] at hf
        rcases hin with ⟨i, hi, hvi⟩
        exact absurd (by simp [hvi] : (i.version == v) = true) (hf i hi)
    have hvv : inst.version = v := by simpa using List.find?_some hfind
    have hmem : inst ∈ reg := List.mem_of_find?_eq_some hfind
    have hpath : inst.path ∈ s.folders := hpaths inst hmem hvv
    have hu := uninstall_found s v reg inst ha hp hr hany hfind
    rw [if_pos hpath] at hu
    refine ⟨_, hu, ?_⟩
    rw [installed_of_valid { s with registryFile := some (.valid (del_matching inst.version reg)),
                                    folders := s.folders.erase inst.path }
      v (del_matching inst.version reg) ha hp rfl]
    rw [hvv, del_matching_any_false v reg hnd]

theorem install_uninstall_membership_witness :
    (∃ s1, install exState "8.0.0" = .ok s1 ∧ installed s1 "8.0.0" = .ok (s1, true)) ∧
    (∃ s2, uninstall exState "7.4.0" = .ok s2 ∧ installed s2 "7.4.0" = .ok (s2, false)) :=
  ⟨(install_uninstall_membership exState "8.0.0" [mkInstance "7.4.0" "7.4.0"]
      rfl rfl rfl).1 (by decide),
   (install_uninstall_membership exState "7.4.0" [mkInstance "7.4.0" "7.4.0"]
      rfl rfl rfl).2 (by decide) (by decide) (by decide)⟩

/-! ## Claim theorems: listing installed versions (C7) -/

/-- C7 counterexample: on a registry holding `1.0.0` then `2.0.0`, the
installed-listing path with limit 1 prints `1.0.0` — the first registry entry —
even though `2.0.0` is an installed version and is strictly higher; so the
output is not ordered most-recent-first (highest version first). -/
theorem list_installed_not_most_recent_first :
    list_installed exTwo 1 = .ok (exTwo, .versions ["1.0.0"]) ∧
    versionLt "1.0.0" "2.0.0" = true ∧
    "2.0.0" ∈ ([mkInstance "1.0.0" "1.0.0", mkInstance "2.0.0" "2.0.0"].map
      (fun i => i.version)) :=
  ⟨by decide, by decide, by decide⟩

/-- C7 (amended): `listInstalled(limit)` returns the installed VersionIDs in
registry order (insertion order, oldest install first), truncated to the first
`limit` entries (Python slice semantics), and an empty registry reports "no
instances installed" as a normal result, not an error. -/
theorem list_installed_registry_order (s : FSState) (n : Int)
    (reg : List RenpyInstance)
    (ha : s.cacheDirExists = true) (hp : s.cachePerm = true)
    (hr : s.registryFile = some (.valid reg)) :
    list_installed s n = .ok (s, if reg.isEmpty then .noInstances
      else .versions ((pySlice n reg).map (fun i => i.version))) := by
  simp only [list_installed, assure_state_of_file s _ ha hp hr,
    get_registry_of_valid s reg ha hp hr]
  split <;> simp_all

theorem list_installed_registry_order_witness :
    list_installed exTwo 1 = .ok (exTwo, .versions ["1.0.0"]) := by
  have h := list_installed_registry_order exTwo 1
    [mkInstance "1.0.0" "1.0.0", mkInstance "2.0.0" "2.0.0"] rfl rfl rfl
  rw [h]
  decide

/-! ## Claim theorem: uniqueness invariant preservation (C4) -/

theorem install_guard_absorb (s t : FSState) (v : Version)
    (hok : assure_state s = .ok t) (ht : assure_state t = .ok t) :
    install s v = install t v := by
  simp only [install, hok, ht]

theorem uninstall_guard_absorb (s t : FSState) (v : Version)
    (hok : assure_state s = .ok t) (ht : assure_state t = .ok t) :
    uninstall s v = uninstall t v := by
  simp only [uninstall, hok, ht]

theorem uniq_install_core (t : FSState) (v : Version)
    (ha : t.cacheDirExists = true) (hp : t.cachePerm = true)
    (hU : UniqueReg t) (hG : GoodFolders t) (c : RegContent)
    (hc : t.registryFile = some c) :
    UniqueReg (outState (install t v)) := by
  cases c with
  | corrupt =>
    simp only [install, assure_state_of_file t _ ha hp hc,
      installed_of_corrupt t v ha hp hc]
    exact uniq_healState t hG
  | valid reg =>
    have hnd : (reg.map (fun i => i.version)).Nodup := by
      have h2 := hU
      simp only [UniqueReg, hc] at h2
      exact h2
    by_cases hany : reg.any (fun i => i.version == v) = true
    · rw [install_already t v reg ha hp hc hany]
      exact hU
    · have hnot : reg.any (fun i => i.version == v) = false :=
        Bool.eq_false_iff.mpr hany
      rw [install_success t v reg ha hp hc hnot]
      simp only [outState, UniqueReg, List.map_append, List.nodup_append]
      refine ⟨hnd, List.nodup_singleton _, ?_⟩
      intro a ha1 ha2
      rw [List.any_eq_false] at hnot
      rcases List.mem_map.mp ha1 with ⟨i, hi, hiv⟩
      have ha3 : a = v := by simpa [mkInstance] using ha2
      exact hnot i hi (by simp [hiv, ha3])

theorem uniq_uninstall_core (t : FSState) (v : Version)
    (ha : t.cacheDirExists = true) (hp : t.cachePerm = true)
    (hU : UniqueReg t) (hG : GoodFolders t) (c : RegContent)
    (hc : t.registryFile = some c) :
    UniqueReg (outState (uninstall t v)) := by
  cases c with
  | corrupt =>
    simp only [uninstall, assure_state_of_file t _ ha hp hc,
      installed_of_corrupt t v ha hp hc]
    exact uniq_healState t hG
  | valid reg =>
    have hnd : (reg.map (fun i => i.version)).Nodup := by
      have h2 := hU
      simp only [UniqueReg, hc] at h2
      exact h2
    by_cases hany : reg.any (fun i => i.version == v) = true
    · cases hfind : reg.find? (fun i => i.version == v) with
      | none =>
        simp only [uninstall, assure_state_of_file t _ ha hp hc,
          installed_of_valid t v reg ha hp hc, hany,
          get_instance_of_valid t v reg ha hp hc, hfind]
        exact hU
      | some inst =>
        rw [uninstall_found t v reg inst ha hp hc hany hfind]
        have hdel : ((del_matching inst.version reg).map (fun i => i.version)).Nodup :=
          hnd.sublist ((del_matching_sublist inst.version reg).map (fun i => i.version))
        by_cases hpm : inst.path ∈ t.folders
        · rw [if_pos hpm]
          exact hdel
        · rw [if_neg hpm]
          exact hdel
    · rw [uninstall_missing t v reg ha hp hc (Bool.eq_false_iff.mpr hany)]
      exact hU

theorem uniq_assure (s : FSState) (hU : UniqueReg s) (hG : GoodFolders s) :
    UniqueReg (outState (assure_state s)) := by
  rcases assure_state_cases s with h | ⟨ha, hp, ⟨c, hc, hok⟩ | ⟨hn, hok⟩⟩
  · rw [h]; exact hU
  · rw [hok]; exact hU
  · rw [hok]; exact uniq_healState s hG

theorem uniq_install (s : FSState) (v : Version) (hU : UniqueReg s) (hG : GoodFolders s) :
    UniqueReg (outState (install s v)) := by
  rcases assure_state_cases s with h | ⟨ha, hp, ⟨c, hc, hok⟩ | ⟨hn, hok⟩⟩
  · simp only [install, h]
    exact hU
  · exact uniq_install_core s v ha hp hU hG c hc
  · rw [install_guard_absorb s (healState s) v hok
      (assure_state_of_file (healState s) _ ha hp rfl)]
    exact uniq_install_core (healState s) v ha hp (uniq_healState s hG) hG _ rfl

theorem uniq_uninstall (s : FSState) (v : Version) (hU : UniqueReg s) (hG : GoodFolders s) :
    UniqueReg (outState (uninstall s v)) := by
  rcases assure_state_cases s with h | ⟨ha, hp, ⟨c, hc, hok⟩ | ⟨hn, hok⟩⟩
  · simp only [uninstall, h]
    exact hU
  · exact uniq_uninstall_core s v ha hp hU hG c hc
  · rw [uninstall_guard_absorb s (healState s) v hok
      (assure_state_of_file (healState s) _ ha hp rfl)]
    exact uniq_uninstall_core (healState s) v ha hp (uniq_healState s hG) hG _ rfl

/-- C4: the registry never holds two instances with equal VersionID. Starting
from any state whose readable registry satisfies this uniqueness invariant
(and whose cache-root folder listing is as `os.listdir` yields it: distinct,
slash-free names), each lifecycle operation — the guard's scan-and-create,
`install`, and `uninstall` — leaves a state that still satisfies it, whether
the operation returned normally or exited. -/
theorem registry_uniqueness_preserved (s : FSState) (v : Version)
    (hU : UniqueReg s) (hG : GoodFolders s) :
    UniqueReg (outState (assure_state s)) ∧
    UniqueReg (outState (install s v)) ∧
    UniqueReg (outState (uninstall s v)) :=
  ⟨uniq_assure s hU hG, uniq_install s v hU hG, uniq_uninstall s v hU hG⟩

theorem registry_uniqueness_preserved_witness :
    (UniqueReg exState ∧ GoodFolders exState) ∧
    (UniqueReg (outState (assure_state exState)) ∧
     UniqueReg (outState (install exState "8.0.0")) ∧
     UniqueReg (outState (uninstall exState "8.0.0"))) := by
  have h1 : UniqueReg exState := by
    show ([mkInstance "7.4.0" "7.4.0"].map (fun i => i.version)).Nodup
    decide
  have h2 : GoodFolders exState := ⟨by decide, by decide⟩
  exact ⟨⟨h1, h2⟩, registry_uniqueness_preserved exState "8.0.0" h1 h2⟩

/-! ## Lemmas about splitting, joining and common prefixes (for C8) -/

theorem splitCh_ne_nil (sep : Char) : ∀ l : List Char, splitCh sep l ≠ []
  | [] => by simp [splitCh]
  | c :: cs => by
    unfold splitCh
    cases h : splitCh sep cs with
    | nil => simp
    | cons p ps =>
      by_cases hc : c = sep
      · simp [hc]
      · simp [hc]

theorem joinCh_splitCh (sep : Char) : ∀ l : List Char, joinCh sep (splitCh sep l) = l
  | [] => rfl
  | c :: cs => by
    have ih := joinCh_splitCh sep cs
    cases h : splitCh sep cs with
    | nil => exact absurd h (splitCh_ne_nil sep cs)
    | cons p ps =>
      rw [h] at ih
      simp only [splitCh, h]
      by_cases hc : c = sep
      · rw [if_pos hc]
        show [] ++ sep :: joinCh sep (p :: ps) = c :: cs
        rw [ih, hc]
        rfl
      · rw [if_neg hc]
        cases ps with
        | nil =>
          show joinCh sep [c :: p] = c :: cs
          have hp : p = cs := ih
          rw [joinCh, hp]
        | cons q ps2 =>
          show joinCh sep ((c :: p) :: q :: ps2) = c :: cs
          rw [joinCh]
          rw [joinCh] at ih
          rw [List.cons_append, ih]

theorem joinCh_append (sep : Char) :
    ∀ (as bs : List (List Char)), as ≠ [] → bs ≠ [] →
      joinCh sep (as ++ bs) = joinCh sep as ++ sep :: joinCh sep bs
  | [], _, h, _ => absurd rfl h
  | [a], bs, _, hb => by
    cases bs with
    | nil => exact absurd rfl hb
    | cons b bs2 =>
      show joinCh sep (a :: b :: bs2) = joinCh sep [a] ++ sep :: joinCh sep (b :: bs2)
      rw [joinCh]
      rfl
  | a :: a2 :: as2, bs, _, hb => by
    have ih := joinCh_append sep (a2 :: as2) bs (by simp) hb
    have e1 : (a :: a2 :: as2) ++ bs = a :: ((a2 :: as2) ++ bs) := by simp
    rw [e1]
    have e2 : (a2 :: as2) ++ bs = a2 :: (as2 ++ bs) := by simp
    show joinCh sep (a :: ((a2 :: as2) ++ bs)) =
      (a ++ sep :: joinCh sep (a2 :: as2)) ++ sep :: joinCh sep bs
    rw [e2]
    show a ++ sep :: joinCh sep (a2 :: (as2 ++ bs)) =
      (a ++ sep :: joinCh sep (a2 :: as2)) ++ sep :: joinCh sep bs
    rw [← e2, ih]
    simp

theorem lcp2_prefix_left {α : Type} [DecidableEq α] : ∀ x y : List α, lcp2 x y <+: x
  | [], y => by cases y <;> exact List.nil_prefix
  | a :: as, [] => List.nil_prefix
  | a :: as, b :: bs => by
    unfold lcp2
    by_cases h : a = b
    · rw [if_pos h]
      obtain ⟨t, ht⟩ := lcp2_prefix_left as bs
      exact ⟨t, by rw [List.cons_append, ht]⟩
    · rw [if_neg h]
      exact List.nil_prefix

theorem lcp2_prefix_right {α : Type} [DecidableEq α] : ∀ x y : List α, lcp2 x y <+: y
  | [], y => by cases y <;> exact List.nil_prefix
  | a :: as, [] => List.nil_prefix
  | a :: as, b :: bs => by
    unfold lcp2
    by_cases h : a = b
    · rw [if_pos h]
      obtain ⟨t, ht⟩ := lcp2_prefix_right as bs
      subst h
      exact ⟨t, by rw [List.cons_append, ht]⟩
    · rw [if_neg h]
      exact List.nil_prefix

theorem lcp2_best {α : Type} [DecidableEq α] :
    ∀ p x y : List α, p <+: x → p <+: y → p <+: lcp2 x y
  | [], x, y, _, _ => List.nil_prefix
  | c :: p2, x, y, hx, hy => by
    obtain ⟨t1, ht1⟩ := hx
    obtain ⟨t2, ht2⟩ := hy
    subst ht1
    subst ht2
    rw [List.cons_append, List.cons_append]
    unfold lcp2
    rw [if_pos rfl]
    obtain ⟨t3, ht3⟩ := lcp2_best p2 (p2 ++ t1) (p2 ++ t2) ⟨t1, rfl⟩ ⟨t2, rfl⟩
    exact ⟨t3, by rw [List.cons_append, ht3]⟩

theorem foldl_lcp2_prefix_all {α : Type} [DecidableEq α] :
    ∀ (m : List (List α)) (acc : List α),
      (m.foldl lcp2 acc <+: acc) ∧ ∀ l ∈ m, m.foldl lcp2 acc <+: l
  | [], acc => ⟨List.prefix_rfl, by simp⟩
  | x :: xs, acc => by
    rw [List.foldl_cons]
    have ih := foldl_lcp2_prefix_all xs (lcp2 acc x)
    refine ⟨ih.1.trans (lcp2_prefix_left acc x), ?_⟩
    intro l hl
    rcases List.mem_cons.mp hl with h | h
    · subst h
      exact ih.1.trans (lcp2_prefix_right acc l)
    · exact ih.2 l h

theorem foldl_lcp2_best {α : Type} [DecidableEq α] :
    ∀ (m : List (List α)) (acc p : List α), p <+: acc → (∀ l ∈ m, p <+: l) →
      p <+: m.foldl lcp2 acc
  | [], acc, p, hacc, _ => by simpa using hacc
  | x :: xs, acc, p, hacc, hm => by
    rw [List.foldl_cons]
    exact foldl_lcp2_best xs (lcp2 acc x) p
      (lcp2_best p acc x hacc (hm x (List.mem_cons_self x xs)))
      (fun l hl => hm l (List.mem_cons_of_mem x hl))

theorem commonPre_prefix_all {α : Type} [DecidableEq α] (m : List (List α)) :
    ∀ l ∈ m, commonPre m <+: l := by
  cases m with
  | nil => simp
  | cons x xs =>
    intro l hl
    show xs.foldl lcp2 x <+: l
    rcases List.mem_cons.mp hl with h | h
    · subst h
      exact (foldl_lcp2_prefix_all xs l).1
    · exact (foldl_lcp2_prefix_all xs x).2 l h

theorem commonPre_best {α : Type} [DecidableEq α] (m : List (List α)) (hm : m ≠ [])
    (p : List α) (hp : ∀ l ∈ m, p <+: l) : p <+: commonPre m := by
  cases m with
  | nil => exact absurd rfl hm
  | cons x xs =>
    show p <+: xs.foldl lcp2 x
    exact foldl_lcp2_best xs x p (hp x (List.mem_cons_self x xs))
      (fun l hl => hp l (List.mem_cons_of_mem x hl))

theorem memberOffsetStr_prefix_mem (names : List (List Char)) (n : List Char)
    (hn : n ∈ names) (hnd : (n.getLast? == some '/') = false) :
    memberOffsetStr names <+: n := by
  by_cases hpre : commonPre (memberParts names) = []
  · simp [memberOffsetStr, hpre]
  · have hparts : (splitCh '/' n).dropLast ∈ memberParts names := by
      simp only [memberParts]
      exact List.mem_map_of_mem _ (List.mem_filter.mpr ⟨hn, by simp [hnd]⟩)
    obtain ⟨r, hr⟩ := commonPre_prefix_all (memberParts names) _ hparts
    have hsn : splitCh '/' n ≠ [] := splitCh_ne_nil '/' n
    have hdec : (splitCh '/' n).dropLast ++ [(splitCh '/' n).getLast hsn] = splitCh '/' n :=
      List.dropLast_append_getLast hsn
    have hcomps : splitCh '/' n = commonPre (memberParts names) ++
        (r ++ [(splitCh '/' n).getLast hsn]) := by
      rw [← List.append_assoc, hr]
      exact hdec.symm
    have hjoin : n = joinCh '/' (commonPre (memberParts names) ++
        (r ++ [(splitCh '/' n).getLast hsn])) := by
      conv_lhs => rw [← joinCh_splitCh '/' n]
      rw [← hcomps]
    rw [joinCh_append '/' _ _ hpre (by simp)] at hjoin
    rw [memberOffsetStr, if_neg hpre]
    refine ⟨joinCh '/' (r ++ [(splitCh '/' n).getLast hsn]), ?_⟩
    conv_rhs => rw [hjoin]
    simp

theorem filterMap_drop_zero (l : List (List Char)) :
    l.filterMap (fun n => if 0 < n.length then some (n.drop 0) else none)
      = l.filter (fun n => !n.isEmpty) := by
  induction l with
  | nil => rfl
  | cons a t ih =>
    rw [List.filterMap_cons, List.filter_cons]
    cases a with
    | nil => simpa using ih
    | cons c cs => simpa using ih

theorem get_members_no_common (names : List (List Char))
    (h : commonPre (memberParts names) = []) :
    get_members names = names.filter (fun n => !n.isEmpty) := by
  have hoff : memberOffsetStr names = [] := by simp [memberOffsetStr, h]
  unfold get_members
  rw [hoff]
  simpa using filterMap_drop_zero names

/-- C8: the archive member-stripping generator. For every archive name list:
the computed component prefix is an initial segment of every non-directory
entry's component list minus its file component, and is the longest such
(conjuncts 1-2, the `os.path.commonprefix` contract); the offset string (the
joined prefix plus separator) is a character-level prefix of every
non-directory entry's name (conjunct 3), so removing `offset` characters
removes exactly that prefix (conjunct 4); the yielded members are exactly the
entries longer than the prefix, with it stripped, entries no longer than the
prefix being dropped (conjunct 5); an archive with no common directory prefix
has nothing stripped (conjunct 6); and the spec's two worked examples hold
(conjuncts 7-8). -/
theorem get_members_strips_common_dir :
    (∀ names : List (List Char),
      (∀ l ∈ memberParts names, commonPre (memberParts names) <+: l) ∧
      (memberParts names ≠ [] → ∀ p, (∀ l ∈ memberParts names, p <+: l) →
        p <+: commonPre (memberParts names)) ∧
      (∀ n ∈ names, (n.getLast? == some '/') = false → memberOffsetStr names <+: n) ∧
      (∀ n r, n = memberOffsetStr names ++ r →
        n.drop (memberOffsetStr names).length = r) ∧
      (∀ m, m ∈ get_members names ↔ ∃ n ∈ names,
        (memberOffsetStr names).length < n.length ∧
          n.drop (memberOffsetStr names).length = m) ∧
      (commonPre (memberParts names) = [] →
        get_members names = names.filter (fun n => !n.isEmpty))) ∧
    get_members [("SDKv1/a.txt").toList, ("SDKv1/sub/b.txt").toList] =
      [("a.txt").toList, ("sub/b.txt").toList] ∧
    get_members [("a.txt").toList, ("b.txt").toList] =
      [("a.txt").toList, ("b.txt").toList] := by
  refine ⟨fun names => ⟨commonPre_prefix_all _,
    fun hne p hp => commonPre_best _ hne p hp,
    fun n hn hnd => memberOffsetStr_prefix_mem names n hn hnd, ?_, ?_,
    get_members_no_common names⟩, by decide, by decide⟩
  · intro n r hnr
    subst hnr
    exact List.drop_left _ _
  · intro m
    simp only [get_members, List.mem_filterMap]
    constructor
    · rintro ⟨n, hn, hf⟩
      by_cases hlen : (memberOffsetStr names).length < n.length
      · rw [if_pos hlen] at hf
        exact ⟨n, hn, hlen, Option.some.inj hf⟩
      · rw [if_neg hlen] at hf
        exact absurd hf (by simp)
    · rintro ⟨n, hn, hlen, hm⟩
      exact ⟨n, hn, by rw [if_pos hlen, hm]⟩

theorem get_members_strips_common_dir_witness :
    (("SDKv1/a.txt").toList.getLast? == some '/') = false ∧
    memberOffsetStr [("SDKv1/a.txt").toList, ("SDKv1/sub/b.txt").toList] <+:
      ("SDKv1/a.txt").toList :=
  ⟨by decide,
    (get_members_strips_common_dir.1
        [("SDKv1/a.txt").toList, ("SDKv1/sub/b.txt").toList]).2.2.1
      (("SDKv1/a.txt").toList) (by decide) (by decide)⟩

/-! ## Claim theorems: the resumable download (C9, C10) -/

/-- C9: for every resumable download with an existing partial file of `N`
bytes and remote length `T`: if `N >= T` no request is made and the
destination file is left untouched; if `N < T` a byte-range request starting
at `N` (and ending at `T`, as the code formats it) is issued and the streamed
bytes — the remainder of the remote object — are appended to the existing
file, which is never truncated (the old content is a prefix of the new), and
the resulting file is exactly `T` bytes. -/
theorem download_resume_semantics (remote localContent : List Nat) :
    (remote.length ≤ localContent.length →
      download remote true (some localContent) = (some localContent, none)) ∧
    (localContent.length < remote.length →
      download remote true (some localContent) =
        (some (localContent ++ remote.drop localContent.length),
         some ((localContent.length : Int), (remote.length : Int))) ∧
      (localContent ++ remote.drop localContent.length).length = remote.length ∧
      localContent <+: localContent ++ remote.drop localContent.length) := by
  constructor
  · intro h
    simp only [download, reduceIte]
    rw [if_pos (by exact_mod_cast h)]
  · intro h
    refine ⟨?_, ?_, List.prefix_append _ _⟩
    · simp only [download, reduceIte]
      rw [if_neg (by omega)]
      simp only [serverRange, Option.getD_some]
      rw [Int.toNat_natCast]
      rw [List.take_of_length_le (by omega)]
    · rw [List.length_append, List.length_drop]
      omega

theorem download_resume_semantics_witness :
    (((3 : Nat) ≤ 3) ∧ download [10, 20, 30] true (some [10, 20, 30]) =
      (some [10, 20, 30], none)) ∧
    (((1 : Nat) < 3) ∧ download [10, 20, 30] true (some [10]) =
      (some ([10] ++ [10, 20, 30].drop 1), some ((1 : Int), (3 : Int)))) :=
  ⟨⟨by decide, (download_resume_semantics [10, 20, 30] [10, 20, 30]).1 (by decide)⟩,
   ⟨by decide, ((download_resume_semantics [10, 20, 30] [10]).2 (by decide)).1⟩⟩

/-- C10: for every download whose response carries no `Content-Length` header,
the routine treats the remote length as `-1`, so the skip condition
`first_byte >= file_size` holds for every local size (including `0` when no
destination file exists): no byte-range request is issued, no destination file
is created, and an existing destination file is left untouched. -/
theorem download_no_content_length (remote : List Nat) (dest : Option (List Nat)) :
    download remote false dest = (dest, none) := by
  cases dest with
  | none =>
    simp only [download]
    rw [if_pos (by simp only [Bool.false_eq_true, if_false]; omega)]
  | some content =>
    simp only [download]
    rw [if_pos (by simp only [Bool.false_eq_true, if_false]; omega)]
